import Mathlib

/-!
Verification of the SellerBuyerPattern analytics pipeline.

The definitions below are a shallow embedding of the pandas/numpy
computations in `app.py`, `main.py`, `prediction/model.py` and
`prediction/nbeats_model.py`.  Prices and volumes are modelled as
rationals; the pandas notion of a missing value (NaN) arising from
`diff()` / `rolling()` is modelled with `Option` or with the `PFloat`
type below, which also tracks the IEEE infinities produced by division
by zero.
-/

/-- `data['Price Change'] = data['Close'].diff()`: the first entry is
missing (NaN), entry `i` is `close[i] - close[i-1]`. -/
def priceChange (closes : List ℚ) : List (Option ℚ) :=
  match closes with
  | [] => []
  | c :: cs => none :: List.zipWith (fun x y => some (x - y)) cs (c :: cs)

/-- `data['Buy Pressure'] = data['Volume'].where(data['Price Change'] > 0, 0)`
(equivalently `np.where(df['Price Change'] > 0, df['Volume'], 0)`):
the bar's volume where the price change is positive, else 0.  A missing
price change compares as false, hence yields 0. -/
def buyVolume (closes volumes : List ℚ) : List ℚ :=
  List.zipWith
    (fun d v => match d with
      | some c => if 0 < c then v else 0
      | none => 0)
    (priceChange closes) volumes

/-- `data['Sell Pressure'] = data['Volume'].where(data['Price Change'] < 0, 0)`. -/
def sellVolume (closes volumes : List ℚ) : List ℚ :=
  List.zipWith
    (fun d v => match d with
      | some c => if c < 0 then v else 0
      | none => 0)
    (priceChange closes) volumes

/-- `data['Net Pressure'] = data['Buy Pressure'] - data['Sell Pressure']`. -/
def netPressure (closes volumes : List ℚ) : List ℚ :=
  List.zipWith (fun b s => b - s) (buyVolume closes volumes) (sellVolume closes volumes)

/-- `data['Volume_Total'] = data['Buy Pressure'] + data['Sell Pressure']`. -/
def volumeTotal (closes volumes : List ℚ) : List ℚ :=
  List.zipWith (fun b s => b + s) (buyVolume closes volumes) (sellVolume closes volumes)

/-- `data['Imbalance'] = (data['Net Pressure'] / data['Volume_Total'].replace(0, 1)).fillna(0)`:
a zero denominator is replaced by 1 before dividing (and no NaN can then
arise, so the `fillna` is a no-op). -/
def imbalance (closes volumes : List ℚ) : List ℚ :=
  List.zipWith (fun n t => n / (if t = 0 then 1 else t))
    (netPressure closes volumes) (volumeTotal closes volumes)

/-- Running sums with initial accumulator `acc` (helper for `cumsum`). -/
def cumsumFrom (acc : ℚ) : List ℚ → List ℚ
  | [] => []
  | x :: xs => (acc + x) :: cumsumFrom (acc + x) xs

/-- `data['Cumulative Pressure'] = data['Net Pressure'].cumsum()`. -/
def cumulativePressure (closes volumes : List ℚ) : List ℚ :=
  cumsumFrom 0 (netPressure closes volumes)

/-- C1: on closes [10, 11, 9, 9, 12] with volumes [100, 100, 100, 100, 100]
the pipeline produces buyVolume = [0,100,0,0,100], sellVolume = [0,0,100,0,0],
netPressure = [0,100,-100,0,100] and cumulativePressure = [0,100,0,0,100]. -/
theorem pressure_scenario_five_bars :
    buyVolume [10, 11, 9, 9, 12] [100, 100, 100, 100, 100] = [0, 100, 0, 0, 100] ∧
    sellVolume [10, 11, 9, 9, 12] [100, 100, 100, 100, 100] = [0, 0, 100, 0, 0] ∧
    netPressure [10, 11, 9, 9, 12] [100, 100, 100, 100, 100] = [0, 100, -100, 0, 100] ∧
    cumulativePressure [10, 11, 9, 9, 12] [100, 100, 100, 100, 100] = [0, 100, 0, 0, 100] := by
  refine ⟨?_, ?_, ?_, ?_⟩ <;>
    · simp [buyVolume, sellVolume, netPressure, cumulativePressure, cumsumFrom, priceChange]
      norm_num

/-! ### Pointwise characterisation of the pressure columns -/

theorem length_priceChange (closes : List ℚ) :
    (priceChange closes).length = closes.length := by
  cases closes with
  | nil => rfl
  | cons c cs => simp [priceChange]

theorem length_buyVolume (closes volumes : List ℚ)
    (hlen : closes.length = volumes.length) :
    (buyVolume closes volumes).length = closes.length := by
  simp [buyVolume, length_priceChange, hlen]

theorem length_sellVolume (closes volumes : List ℚ)
    (hlen : closes.length = volumes.length) :
    (sellVolume closes volumes).length = closes.length := by
  simp [sellVolume, length_priceChange, hlen]

theorem buyVolume_getD (closes volumes : List ℚ)
    (hlen : closes.length = volumes.length) (i : ℕ) (hi : i < closes.length) :
    (buyVolume closes volumes).getD i 0 =
      match (priceChange closes).getD i none with
      | some c => if 0 < c then volumes.getD i 0 else 0
      | none => 0 := by
  have h1 : i < (buyVolume closes volumes).length := by
    rw [length_buyVolume closes volumes hlen]; exact hi
  have h2 : i < (priceChange closes).length := by
    rw [length_priceChange]; exact hi
  have h3 : i < volumes.length := hlen ▸ hi
  rw [List.getD_eq_getElem _ _ h1, List.getD_eq_getElem _ _ h2,
    List.getD_eq_getElem _ _ h3]
  simp only [buyVolume, List.getElem_zipWith]

theorem sellVolume_getD (closes volumes : List ℚ)
    (hlen : closes.length = volumes.length) (i : ℕ) (hi : i < closes.length) :
    (sellVolume closes volumes).getD i 0 =
      match (priceChange closes).getD i none with
      | some c => if c < 0 then volumes.getD i 0 else 0
      | none => 0 := by
  have h1 : i < (sellVolume closes volumes).length := by
    rw [length_sellVolume closes volumes hlen]; exact hi
  have h2 : i < (priceChange closes).length := by
    rw [length_priceChange]; exact hi
  have h3 : i < volumes.length := hlen ▸ hi
  rw [List.getD_eq_getElem _ _ h1, List.getD_eq_getElem _ _ h2,
    List.getD_eq_getElem _ _ h3]
  simp only [sellVolume, List.getElem_zipWith]

theorem netPressure_getD (closes volumes : List ℚ)
    (hlen : closes.length = volumes.length) (i : ℕ) (hi : i < closes.length) :
    (netPressure closes volumes).getD i 0 =
      (buyVolume closes volumes).getD i 0 - (sellVolume closes volumes).getD i 0 := by
  have hb : i < (buyVolume closes volumes).length := by
    rw [length_buyVolume closes volumes hlen]; exact hi
  have hs : i < (sellVolume closes volumes).length := by
    rw [length_sellVolume closes volumes hlen]; exact hi
  have h1 : i < (netPressure closes volumes).length := by
    simp only [netPressure, List.length_zipWith]
    omega
  rw [List.getD_eq_getElem _ _ h1, List.getD_eq_getElem _ _ hb,
    List.getD_eq_getElem _ _ hs]
  simp only [netPressure, List.getElem_zipWith]

theorem volumeTotal_getD (closes volumes : List ℚ)
    (hlen : closes.length = volumes.length) (i : ℕ) (hi : i < closes.length) :
    (volumeTotal closes volumes).getD i 0 =
      (buyVolume closes volumes).getD i 0 + (sellVolume closes volumes).getD i 0 := by
  have hb : i < (buyVolume closes volumes).length := by
    rw [length_buyVolume closes volumes hlen]; exact hi
  have hs : i < (sellVolume closes volumes).length := by
    rw [length_sellVolume closes volumes hlen]; exact hi
  have h1 : i < (volumeTotal closes volumes).length := by
    simp only [volumeTotal, List.length_zipWith]
    omega
  rw [List.getD_eq_getElem _ _ h1, List.getD_eq_getElem _ _ hb,
    List.getD_eq_getElem _ _ hs]
  simp only [volumeTotal, List.getElem_zipWith]

theorem imbalance_getD (closes volumes : List ℚ)
    (hlen : closes.length = volumes.length) (i : ℕ) (hi : i < closes.length) :
    (imbalance closes volumes).getD i 0 =
      (netPressure closes volumes).getD i 0 /
        (if (volumeTotal closes volumes).getD i 0 = 0 then 1
         else (volumeTotal closes volumes).getD i 0) := by
  have hn : i < (netPressure closes volumes).length := by
    simp only [netPressure, List.length_zipWith,
      length_buyVolume closes volumes hlen, length_sellVolume closes volumes hlen]
    omega
  have ht : i < (volumeTotal closes volumes).length := by
    simp only [volumeTotal, List.length_zipWith,
      length_buyVolume closes volumes hlen, length_sellVolume closes volumes hlen]
    omega
  have h1 : i < (imbalance closes volumes).length := by
    simp only [imbalance, List.length_zipWith]
    omega
  rw [List.getD_eq_getElem _ _ h1, List.getD_eq_getElem _ _ hn,
    List.getD_eq_getElem _ _ ht]
  simp only [imbalance, List.getElem_zipWith]

/-- C2: with non-negative volumes, a bar whose price change is defined and
nonzero has buyVolume + sellVolume equal to its volume exactly, and every
bar (the first bar and zero-change bars included) has
buyVolume + sellVolume ≤ its volume. -/
theorem buySell_volume_conservation (closes volumes : List ℚ)
    (hlen : closes.length = volumes.length)
    (hvol : ∀ v ∈ volumes, 0 ≤ v) :
    (∀ i, i < closes.length → ∀ c, (priceChange closes).getD i none = some c → c ≠ 0 →
        (buyVolume closes volumes).getD i 0 + (sellVolume closes volumes).getD i 0
          = volumes.getD i 0)
    ∧ (∀ i, i < closes.length →
        (buyVolume closes volumes).getD i 0 + (sellVolume closes volumes).getD i 0
          ≤ volumes.getD i 0) := by
  constructor
  · intro i hi c hc hne
    rw [buyVolume_getD closes volumes hlen i hi,
      sellVolume_getD closes volumes hlen i hi, hc]
    rcases lt_trichotomy c 0 with h | h | h
    · simp only [if_neg (not_lt.mpr h.le), if_pos h, zero_add]
    · exact absurd h hne
    · simp only [if_pos h, if_neg (not_lt.mpr h.le), add_zero]
  · intro i hi
    rw [buyVolume_getD closes volumes hlen i hi,
      sellVolume_getD closes volumes hlen i hi]
    have hv : 0 ≤ volumes.getD i 0 := by
      have h3 : i < volumes.length := hlen ▸ hi
      rw [List.getD_eq_getElem _ _ h3]
      exact hvol _ (List.getElem_mem h3)
    cases hpc : (priceChange closes).getD i none with
    | none => simpa using hv
    | some c =>
      dsimp only
      split_ifs with h1 h2
      · exact absurd h2 (not_lt.mpr h1.le)
      · rw [add_zero]
      · rw [zero_add]
      · rw [add_zero]; exact hv

/-- C2 witness: the conservation theorem applied to the 5-bar scenario,
at bar 1 (price change +1) for the equality and bar 3 (flat) for the bound. -/
theorem buySell_volume_conservation_witness :
    (buyVolume [10, 11, 9, 9, 12] [100, 100, 100, 100, 100]).getD 1 0
        + (sellVolume [10, 11, 9, 9, 12] [100, 100, 100, 100, 100]).getD 1 0
      = ([100, 100, 100, 100, 100] : List ℚ).getD 1 0
    ∧ (buyVolume [10, 11, 9, 9, 12] [100, 100, 100, 100, 100]).getD 3 0
        + (sellVolume [10, 11, 9, 9, 12] [100, 100, 100, 100, 100]).getD 3 0
      ≤ ([100, 100, 100, 100, 100] : List ℚ).getD 3 0 :=
  ⟨(buySell_volume_conservation [10, 11, 9, 9, 12] [100, 100, 100, 100, 100]
      (by decide) (by decide)).1 1 (by decide) 1 (by norm_num [priceChange]) (by norm_num),
   (buySell_volume_conservation [10, 11, 9, 9, 12] [100, 100, 100, 100, 100]
      (by decide) (by decide)).2 3 (by decide)⟩

/-- C10: at every bar at most one of buyVolume and sellVolume is nonzero,
and |netPressure| = buyVolume + sellVolume (volumes non-negative). -/
theorem pressure_exclusive_abs_net (closes volumes : List ℚ)
    (hlen : closes.length = volumes.length)
    (hvol : ∀ v ∈ volumes, 0 ≤ v) (i : ℕ) (hi : i < closes.length) :
    ((buyVolume closes volumes).getD i 0 = 0 ∨ (sellVolume closes volumes).getD i 0 = 0)
    ∧ |(netPressure closes volumes).getD i 0| =
        (buyVolume closes volumes).getD i 0 + (sellVolume closes volumes).getD i 0 := by
  rw [netPressure_getD closes volumes hlen i hi,
    buyVolume_getD closes volumes hlen i hi,
    sellVolume_getD closes volumes hlen i hi]
  have hv : 0 ≤ volumes.getD i 0 := by
    have h3 : i < volumes.length := hlen ▸ hi
    rw [List.getD_eq_getElem _ _ h3]
    exact hvol _ (List.getElem_mem h3)
  cases hpc : (priceChange closes).getD i none with
  | none => simp
  | some c =>
    dsimp only
    split_ifs with h1 h2
    · exact absurd h2 (not_lt.mpr (le_of_lt h1))
    · exact ⟨Or.inr rfl, by rw [sub_zero, add_zero, abs_of_nonneg hv]⟩
    · exact ⟨Or.inl rfl, by rw [zero_sub, zero_add, abs_neg, abs_of_nonneg hv]⟩
    · simp

/-- C10 witness: applied to the 5-bar scenario at bar 2 (price change −2). -/
theorem pressure_exclusive_abs_net_witness :
    ((buyVolume [10, 11, 9, 9, 12] [100, 100, 100, 100, 100]).getD 2 0 = 0
      ∨ (sellVolume [10, 11, 9, 9, 12] [100, 100, 100, 100, 100]).getD 2 0 = 0)
    ∧ |(netPressure [10, 11, 9, 9, 12] [100, 100, 100, 100, 100]).getD 2 0| =
        (buyVolume [10, 11, 9, 9, 12] [100, 100, 100, 100, 100]).getD 2 0
          + (sellVolume [10, 11, 9, 9, 12] [100, 100, 100, 100, 100]).getD 2 0 :=
  pressure_exclusive_abs_net [10, 11, 9, 9, 12] [100, 100, 100, 100, 100]
    (by decide) (by decide) 2 (by decide)

/-- C3: the imbalance equals netPressure / (buyVolume + sellVolume) when the
denominator is positive and 0 when it is 0 (the division never faults,
being total by the replace-0-by-1 construction), and it lies in [-1, 1]. -/
theorem imbalance_safe_and_bounded (closes volumes : List ℚ)
    (hlen : closes.length = volumes.length) (i : ℕ) (hi : i < closes.length) :
    (0 < (volumeTotal closes volumes).getD i 0 →
        (imbalance closes volumes).getD i 0 =
          (netPressure closes volumes).getD i 0 / (volumeTotal closes volumes).getD i 0)
    ∧ ((volumeTotal closes volumes).getD i 0 = 0 →
        (imbalance closes volumes).getD i 0 = 0)
    ∧ -1 ≤ (imbalance closes volumes).getD i 0
    ∧ (imbalance closes volumes).getD i 0 ≤ 1 := by
  have hIm := imbalance_getD closes volumes hlen i hi
  have hT := volumeTotal_getD closes volumes hlen i hi
  have hN := netPressure_getD closes volumes hlen i hi
  have hB := buyVolume_getD closes volumes hlen i hi
  have hS := sellVolume_getD closes volumes hlen i hi
  refine ⟨?_, ?_, ?_, ?_⟩
  · intro hpos
    rw [hIm, if_neg (ne_of_gt hpos)]
  · intro hzero
    rw [hIm, if_pos hzero]
    have hn0 : (netPressure closes volumes).getD i 0 = 0 := by
      rw [hN]
      rw [hT, hB, hS] at hzero
      rw [hB, hS]
      cases hpc : (priceChange closes).getD i none with
      | none => simp
      | some c =>
        rw [hpc] at hzero
        dsimp only at hzero ⊢
        split_ifs at hzero ⊢ with h1 h2
        · exact absurd h2 (not_lt.mpr h1.le)
        · rw [add_zero] at hzero; rw [hzero, sub_zero]
        · rw [zero_add] at hzero; rw [hzero, sub_zero]
        · rw [sub_zero]
    rw [hn0, zero_div]
  all_goals
    rw [hIm, hN, hT, hB, hS]
    cases hpc : (priceChange closes).getD i none with
    | none => norm_num
    | some c =>
      dsimp only
      by_cases h1 : 0 < c
      · rw [if_pos h1, if_neg (not_lt.mpr h1.le), sub_zero, add_zero]
        by_cases hv : volumes.getD i 0 = 0
        · rw [if_pos hv, hv]; norm_num
        · rw [if_neg hv, div_self hv]
          all_goals norm_num
      · by_cases h2 : c < 0
        · rw [if_neg h1, if_pos h2, zero_sub, zero_add]
          by_cases hv : volumes.getD i 0 = 0
          · rw [if_pos hv, hv]; norm_num
          · rw [if_neg hv, neg_div, div_self hv]
            all_goals norm_num
        · rw [if_neg h1, if_neg h2]; norm_num

/-- C3 witness: applied to the 5-bar scenario at bar 4 (price change +3). -/
theorem imbalance_safe_and_bounded_witness :
    (0 < (volumeTotal [10, 11, 9, 9, 12] [100, 100, 100, 100, 100]).getD 4 0 →
        (imbalance [10, 11, 9, 9, 12] [100, 100, 100, 100, 100]).getD 4 0 =
          (netPressure [10, 11, 9, 9, 12] [100, 100, 100, 100, 100]).getD 4 0 /
            (volumeTotal [10, 11, 9, 9, 12] [100, 100, 100, 100, 100]).getD 4 0)
    ∧ ((volumeTotal [10, 11, 9, 9, 12] [100, 100, 100, 100, 100]).getD 4 0 = 0 →
        (imbalance [10, 11, 9, 9, 12] [100, 100, 100, 100, 100]).getD 4 0 = 0)
    ∧ -1 ≤ (imbalance [10, 11, 9, 9, 12] [100, 100, 100, 100, 100]).getD 4 0
    ∧ (imbalance [10, 11, 9, 9, 12] [100, 100, 100, 100, 100]).getD 4 0 ≤ 1 :=
  imbalance_safe_and_bounded [10, 11, 9, 9, 12] [100, 100, 100, 100, 100]
    (by decide) 4 (by decide)

/-! ### Exponential moving averages (`main.py`)

`df['Close'].ewm(span=S, adjust=False).mean()` is the recursive
smoothing with `α = 2 / (S + 1)`: the first output equals the first
input, and each later output is `α·x[i] + (1 − α)·out[i−1]`. -/

/-- The tail of the `adjust=False` exponential smoothing, carrying the
previous output `prev` (helper for `ema`). -/
def emaFrom (a : ℚ) (prev : ℚ) : List ℚ → List ℚ
  | [] => []
  | x :: xs => (a * x + (1 - a) * prev) :: emaFrom a (a * x + (1 - a) * prev) xs

/-- `series.ewm(span=S, adjust=False).mean()` with smoothing factor
`α = 2 / (S + 1)`. -/
def ema (span : ℕ) (xs : List ℚ) : List ℚ :=
  match xs with
  | [] => []
  | x :: rest => x :: emaFrom (2 / (span + 1)) x rest

/-- `df['EMA20'] = df['Close'].ewm(span=20, adjust=False).mean()`. -/
def ema20 (closes : List ℚ) : List ℚ := ema 20 closes

/-- `df['MACD'] = exp1 - exp2` where `exp1`/`exp2` are the span-12 and
span-26 `adjust=False` EMAs of the closes. -/
def macd (closes : List ℚ) : List ℚ :=
  List.zipWith (fun x y => x - y) (ema 12 closes) (ema 26 closes)

/-- `df['Signal'] = df['MACD'].ewm(span=9, adjust=False).mean()`. -/
def signalLine (closes : List ℚ) : List ℚ := ema 9 (macd closes)

theorem length_emaFrom (a prev : ℚ) (xs : List ℚ) :
    (emaFrom a prev xs).length = xs.length := by
  induction xs generalizing prev with
  | nil => rfl
  | cons x rest ih => simp [emaFrom, ih]

theorem length_ema (span : ℕ) (xs : List ℚ) : (ema span xs).length = xs.length := by
  cases xs with
  | nil => rfl
  | cons x rest => simp [ema, length_emaFrom]

theorem emaFrom_getD_zero (a prev x : ℚ) (xs : List ℚ) :
    (emaFrom a prev (x :: xs)).getD 0 0 = a * x + (1 - a) * prev := rfl

theorem emaFrom_getD_succ (a prev : ℚ) (xs : List ℚ) (i : ℕ)
    (h : i + 1 < xs.length) :
    (emaFrom a prev xs).getD (i + 1) 0 =
      a * xs.getD (i + 1) 0 + (1 - a) * (emaFrom a prev xs).getD i 0 := by
  induction xs generalizing prev i with
  | nil => simp at h
  | cons x rest ih =>
    cases rest with
    | nil => simp at h
    | cons y rest2 =>
      cases i with
      | zero => rfl
      | succ j =>
        have h2 : j + 1 < (y :: rest2).length := by
          simp at h ⊢
          omega
        simpa [emaFrom] using ih (a * x + (1 - a) * prev) j h2

/-- The indexed specification of `ema`: output 0 is input 0 and each
later output obeys the recursive-smoothing equation with `α = 2/(S+1)`. -/
theorem ema_spec (span : ℕ) (xs : List ℚ) :
    (ema span xs).length = xs.length
    ∧ (0 < xs.length → (ema span xs).getD 0 0 = xs.getD 0 0)
    ∧ (∀ i, i + 1 < xs.length →
        (ema span xs).getD (i + 1) 0 =
          (2 / (span + 1)) * xs.getD (i + 1) 0
            + (1 - 2 / (span + 1)) * (ema span xs).getD i 0) := by
  refine ⟨length_ema span xs, ?_, ?_⟩
  · intro h
    cases xs with
    | nil => simp at h
    | cons x rest => rfl
  · intro i h
    cases xs with
    | nil => simp at h
    | cons x rest =>
      cases rest with
      | nil => simp at h
      | cons y rest2 =>
        cases i with
        | zero => rfl
        | succ j =>
          have h2 : j + 1 < (y :: rest2).length := by
            simp at h ⊢
            omega
          simpa [ema, emaFrom] using
            emaFrom_getD_succ (2 / (span + 1)) x (y :: rest2) j h2

theorem length_macd (closes : List ℚ) : (macd closes).length = closes.length := by
  simp [macd, length_ema]

theorem macd_getD (closes : List ℚ) (i : ℕ) (hi : i < closes.length) :
    (macd closes).getD i 0 =
      (ema 12 closes).getD i 0 - (ema 26 closes).getD i 0 := by
  have h1 : i < (macd closes).length := by rw [length_macd]; exact hi
  have h12 : i < (ema 12 closes).length := by rw [length_ema]; exact hi
  have h26 : i < (ema 26 closes).length := by rw [length_ema]; exact hi
  rw [List.getD_eq_getElem _ _ h1, List.getD_eq_getElem _ _ h12,
    List.getD_eq_getElem _ _ h26]
  simp only [macd, List.getElem_zipWith]

/-- The property "out is the `adjust=false` recursive EMA of `series`
with smoothing factor `α = 2/(span+1)`": same length, first output is
the first input (no warm-up gap), and each later output follows the
recursion. -/
def IsEwmRec (span : ℕ) (series out : List ℚ) : Prop :=
  out.length = series.length
  ∧ (0 < series.length → out.getD 0 0 = series.getD 0 0)
  ∧ ∀ i, i + 1 < series.length →
      out.getD (i + 1) 0 =
        (2 / ((span : ℚ) + 1)) * series.getD (i + 1) 0
          + (1 - 2 / ((span : ℚ) + 1)) * out.getD i 0

/-- C7: every EMA the program computes — EMA20 of closes, the MACD
components EMA12 and EMA26 of closes, and the span-9 signal line of the
MACD series — satisfies the recursive `adjust=false` convention with
`α = 2/(S+1)` and is defined from the very first element, and
`MACD[i] = EMA12[i] − EMA26[i]` at every index. -/
theorem ema_macd_signal_recursions (closes : List ℚ) :
    IsEwmRec 20 closes (ema20 closes)
    ∧ IsEwmRec 12 closes (ema 12 closes)
    ∧ IsEwmRec 26 closes (ema 26 closes)
    ∧ IsEwmRec 9 (macd closes) (signalLine closes)
    ∧ (macd closes).length = closes.length
    ∧ ∀ i, i < closes.length →
        (macd closes).getD i 0 =
          (ema 12 closes).getD i 0 - (ema 26 closes).getD i 0 := by
  have hgen : ∀ (s : ℕ) (xs : List ℚ), IsEwmRec s xs (ema s xs) := by
    intro s xs
    have h := ema_spec s xs
    have hcast : ((s : ℚ) + 1) = ((s + 1 : ℕ) : ℚ) := by push_cast; ring
    refine ⟨h.1, h.2.1, ?_⟩
    intro i hi
    have := h.2.2 i hi
    rw [hcast]
    exact_mod_cast this
  exact ⟨hgen 20 closes, hgen 12 closes, hgen 26 closes,
    hgen 9 (macd closes), length_macd closes, fun i hi => macd_getD closes i hi⟩

/-- C7 witness: the recursion theorem applied to the concrete series
[1, 2, 4], discharging the index-bound hypotheses at indices 0 and 1. -/
theorem ema_macd_signal_recursions_witness :
    (ema20 [1, 2, 4]).getD 1 0 =
      (2 / ((20 : ℚ) + 1)) * ([1, 2, 4] : List ℚ).getD 1 0
        + (1 - 2 / ((20 : ℚ) + 1)) * (ema20 [1, 2, 4]).getD 0 0
    ∧ (ema20 [1, 2, 4]).getD 0 0 = ([1, 2, 4] : List ℚ).getD 0 0
    ∧ (macd [1, 2, 4]).getD 1 0 =
        (ema 12 [1, 2, 4]).getD 1 0 - (ema 26 [1, 2, 4]).getD 1 0 :=
  ⟨(ema_macd_signal_recursions [1, 2, 4]).1.2.2 0 (by decide),
   (ema_macd_signal_recursions [1, 2, 4]).1.2.1 (by decide),
   (ema_macd_signal_recursions [1, 2, 4]).2.2.2.2.2 1 (by decide)⟩

/-! ### Lag features (`prediction/model.py` `create_lag_features`)

`create_lag_features` adds, for each lag `j = 1..lags`, the columns
`Buy_lag_j = Buy.shift(j)`, `Sell_lag_j = Sell.shift(j)` and
`Close_lag_j = Close.shift(j)`, and then drops every row holding a NaN.
`shift(j)` puts NaN in the first `j` rows, so exactly the first `lags`
rows are dropped; surviving row `i` carries, in column order, the triple
`(buy[i−j], sell[i−j], close[i−j])` for each `j`, and `train_model` uses
`Close` itself as the label. -/

/-- The lag-feature row at index `i`: the recursion appends for each lag
`j+1` (in increasing lag order, as the source loop does) the triple of
shifted Buy/Sell/Close values. -/
def lagVector (buy sell close : List ℚ) (i : ℕ) : ℕ → List ℚ
  | 0 => []
  | j + 1 =>
    lagVector buy sell close i j ++
      [buy.getD (i - (j + 1)) 0, sell.getD (i - (j + 1)) 0, close.getD (i - (j + 1)) 0]

/-- The full feature/label sequence after `dropna`: one row per index
`i ∈ [lags, n)`, pairing the lag vector with the label `close[i]`. -/
def lagFeatures (buy sell close : List ℚ) (lags : ℕ) : List (List ℚ × ℚ) :=
  ((List.range close.length).drop lags).map
    (fun i => (lagVector buy sell close i lags, close.getD i 0))

theorem length_lagVector (buy sell close : List ℚ) (i L : ℕ) :
    (lagVector buy sell close i L).length = 3 * L := by
  induction L with
  | zero => rfl
  | succ m ih => simp [lagVector, ih]; omega

theorem length_lagFeatures (buy sell close : List ℚ) (L : ℕ) :
    (lagFeatures buy sell close L).length = close.length - L := by
  simp [lagFeatures]

theorem lagFeatures_getD (buy sell close : List ℚ) (L k : ℕ)
    (hk : k < close.length - L) :
    (lagFeatures buy sell close L).getD k ([], 0) =
      (lagVector buy sell close (L + k) L, close.getD (L + k) 0) := by
  have h1 : k < (lagFeatures buy sell close L).length := by
    rw [length_lagFeatures]; exact hk
  rw [List.getD_eq_getElem _ _ h1]
  simp only [lagFeatures, List.getElem_map, List.getElem_drop, List.getElem_range]

theorem getD_eq_of_take_eq (as bs : List ℚ) (m q : ℕ)
    (h : as.take m = bs.take m) (hq : q < m) :
    as.getD q 0 = bs.getD q 0 := by
  rw [List.getD_eq_getElem?_getD, List.getD_eq_getElem?_getD]
  have ha : as[q]? = (as.take m)[q]? := by simp [List.getElem?_take, hq]
  have hb : bs[q]? = (bs.take m)[q]? := by simp [List.getElem?_take, hq]
  rw [ha, hb, h]

/-- The lag vector at row `i` depends only on the strict prefixes of the
Buy/Sell/Close series before `i`. -/
theorem lagVector_take_agnostic (buy sell close buy2 sell2 close2 : List ℚ)
    (i L : ℕ) (hL : L ≤ i)
    (hb : buy.take i = buy2.take i) (hs : sell.take i = sell2.take i)
    (hc : close.take i = close2.take i) :
    lagVector buy sell close i L = lagVector buy2 sell2 close2 i L := by
  induction L with
  | zero => rfl
  | succ m ih =>
    have hlt : i - (m + 1) < i := by omega
    simp only [lagVector]
    rw [ih (by omega),
      getD_eq_of_take_eq buy buy2 i _ hb hlt,
      getD_eq_of_take_eq sell sell2 i _ hs hlt,
      getD_eq_of_take_eq close close2 i _ hc hlt]

theorem lagVector_getD_triple (buy sell close : List ℚ) (i L j : ℕ) (hj : j < L) :
    (lagVector buy sell close i L).getD (3 * j) 0 = buy.getD (i - (j + 1)) 0
    ∧ (lagVector buy sell close i L).getD (3 * j + 1) 0 = sell.getD (i - (j + 1)) 0
    ∧ (lagVector buy sell close i L).getD (3 * j + 2) 0 = close.getD (i - (j + 1)) 0 := by
  induction L with
  | zero => omega
  | succ m ih =>
    by_cases hjm : j < m
    · have h0 : 3 * j < (lagVector buy sell close i m).length := by
        rw [length_lagVector]; omega
      have h1 : 3 * j + 1 < (lagVector buy sell close i m).length := by
        rw [length_lagVector]; omega
      have h2 : 3 * j + 2 < (lagVector buy sell close i m).length := by
        rw [length_lagVector]; omega
      simp only [lagVector]
      rw [List.getD_append _ _ _ _ h0, List.getD_append _ _ _ _ h1,
        List.getD_append _ _ _ _ h2]
      exact ih hjm
    · have hjeq : j = m := by omega
      subst hjeq
      have h0 : (lagVector buy sell close i j).length ≤ 3 * j := by
        rw [length_lagVector]
      have h1 : (lagVector buy sell close i j).length ≤ 3 * j + 1 := by
        rw [length_lagVector]; omega
      have h2 : (lagVector buy sell close i j).length ≤ 3 * j + 2 := by
        rw [length_lagVector]; omega
      simp only [lagVector]
      rw [List.getD_append_right _ _ _ _ h0, List.getD_append_right _ _ _ _ h1,
        List.getD_append_right _ _ _ _ h2, length_lagVector]
      refine ⟨?_, ?_, ?_⟩
      · rw [Nat.sub_self]; rfl
      · rw [Nat.add_sub_cancel_left]; rfl
      · rw [Nat.add_sub_cancel_left]; rfl

/-- C4: for lag depth `L ≥ 1` the feature builder emits one row per index
`i ≥ L` only (the first `L` indices are dropped), row `k` standing for
index `i = L + k` with label `close[i]`; its fixed-length vector holds in
position `3j, 3j+1, 3j+2` the buy/sell/close values at index `i − (j+1)`
for `j < L` — indices ranging over `i−1` down to `i−L`, all `< i` — and
the vector is unchanged under any change of the series at or after
index `i` (no look-ahead). -/
theorem lag_features_window_no_lookahead (buy sell close : List ℚ) (L : ℕ)
    (hL : 1 ≤ L) :
    (lagFeatures buy sell close L).length = close.length - L
    ∧ (∀ k, k < close.length - L →
        (lagFeatures buy sell close L).getD k ([], 0) =
          (lagVector buy sell close (L + k) L, close.getD (L + k) 0))
    ∧ (∀ k, k < close.length - L →
        ((lagFeatures buy sell close L).getD k ([], 0)).1.length = 3 * L)
    ∧ (∀ k, k < close.length - L → ∀ j, j < L →
        ((lagFeatures buy sell close L).getD k ([], 0)).1.getD (3 * j) 0
            = buy.getD (L + k - (j + 1)) 0
        ∧ ((lagFeatures buy sell close L).getD k ([], 0)).1.getD (3 * j + 1) 0
            = sell.getD (L + k - (j + 1)) 0
        ∧ ((lagFeatures buy sell close L).getD k ([], 0)).1.getD (3 * j + 2) 0
            = close.getD (L + k - (j + 1)) 0
        ∧ L + k - (j + 1) < L + k ∧ L + k - L ≤ L + k - (j + 1))
    ∧ (∀ k, k < close.length - L → ∀ buy2 sell2 close2 : List ℚ,
        buy.take (L + k) = buy2.take (L + k) →
        sell.take (L + k) = sell2.take (L + k) →
        close.take (L + k) = close2.take (L + k) →
        ((lagFeatures buy sell close L).getD k ([], 0)).1 =
          lagVector buy2 sell2 close2 (L + k) L) := by
  refine ⟨length_lagFeatures buy sell close L, lagFeatures_getD buy sell close L, ?_, ?_, ?_⟩
  · intro k hk
    rw [lagFeatures_getD buy sell close L k hk]
    exact length_lagVector buy sell close (L + k) L
  · intro k hk j hj
    rw [lagFeatures_getD buy sell close L k hk]
    have h := lagVector_getD_triple buy sell close (L + k) L j hj
    exact ⟨h.1, h.2.1, h.2.2, by omega, by omega⟩
  · intro k hk buy2 sell2 close2 hb hs hc
    rw [lagFeatures_getD buy sell close L k hk]
    exact lagVector_take_agnostic buy sell close buy2 sell2 close2 (L + k) L
      (by omega) hb hs hc

/-- C4 witness: the lag-feature theorem applied with lag depth 2 to
4-element series, discharging the bound hypotheses at row 0, lag slot 0. -/
theorem lag_features_window_no_lookahead_witness :
    (lagFeatures [1, 2, 3, 4] [5, 6, 7, 8] [10, 11, 12, 13] 2).length =
      ([10, 11, 12, 13] : List ℚ).length - 2
    ∧ ((lagFeatures [1, 2, 3, 4] [5, 6, 7, 8] [10, 11, 12, 13] 2).getD 0
        ([], 0)).1.getD (3 * 0) 0 = ([1, 2, 3, 4] : List ℚ).getD (2 + 0 - (0 + 1)) 0
    ∧ ((lagFeatures [1, 2, 3, 4] [5, 6, 7, 8] [10, 11, 12, 13] 2).getD 1
        ([], 0)).1 = lagVector [1, 2, 3, 4] [5, 6, 7, 8] [10, 11, 12, 99] (2 + 1) 2 :=
  ⟨(lag_features_window_no_lookahead [1, 2, 3, 4] [5, 6, 7, 8] [10, 11, 12, 13] 2
      (by decide)).1,
   ((lag_features_window_no_lookahead [1, 2, 3, 4] [5, 6, 7, 8] [10, 11, 12, 13] 2
      (by decide)).2.2.2.1 0 (by decide) 0 (by decide)).1,
   (lag_features_window_no_lookahead [1, 2, 3, 4] [5, 6, 7, 8] [10, 11, 12, 13] 2
      (by decide)).2.2.2.2 1 (by decide) [1, 2, 3, 4] [5, 6, 7, 8] [10, 11, 12, 99]
      rfl rfl (by norm_num)⟩

/-! ### Chronological train/holdout split (`prediction/model.py` `train_model`)

`train_model` selects `X_train = X[df.index < test_start]` and
`X_test = X[(df.index >= test_start) & (df.index <= test_end)]`.
Timestamps are modelled as naturals, each feature row by its label. -/

/-- The row selection of `train_model`: train = rows strictly before
`tstart`, holdout = rows with `tstart ≤ timestamp ≤ tend`. -/
def trainTestSplit (feats : List (ℕ × ℚ)) (tstart tend : ℕ) :
    List (ℕ × ℚ) × List (ℕ × ℚ) :=
  (feats.filter (fun p => p.1 < tstart),
   feats.filter (fun p => tstart ≤ p.1 ∧ p.1 ≤ tend))

theorem filter_lt_eq_takeWhile (feats : List (ℕ × ℚ)) (t : ℕ)
    (hs : List.Pairwise (fun p q => p.1 < q.1) feats) :
    feats.filter (fun p => p.1 < t) = feats.takeWhile (fun p => p.1 < t) := by
  induction feats with
  | nil => rfl
  | cons p rest ih =>
    rcases List.pairwise_cons.mp hs with ⟨hp, hrest⟩
    by_cases hpt : p.1 < t
    · simp only [List.filter_cons, List.takeWhile_cons]
      simp [hpt, ih hrest]
    · simp only [List.filter_cons, List.takeWhile_cons]
      simp [hpt]
      intro a b hq
      have := hp (a, b) hq
      omega

theorem filter_window_eq_dropWhile (feats : List (ℕ × ℚ)) (t e : ℕ)
    (hs : List.Pairwise (fun p q => p.1 < q.1) feats)
    (hbound : ∀ p ∈ feats, p.1 ≤ e) :
    feats.filter (fun p => t ≤ p.1 ∧ p.1 ≤ e) =
      feats.dropWhile (fun p => p.1 < t) := by
  induction feats with
  | nil => rfl
  | cons p rest ih =>
    rcases List.pairwise_cons.mp hs with ⟨hp, hrest⟩
    by_cases hpt : p.1 < t
    · have hcond : ¬(t ≤ p.1 ∧ p.1 ≤ e) := by omega
      simp only [List.filter_cons, List.dropWhile_cons]
      simp [hpt, hcond]
      have h := ih hrest (fun q hq => hbound q (List.mem_cons_of_mem p hq))
      simpa using h
    · have hcond1 : t ≤ p.1 := by omega
      have hcond2 : p.1 ≤ e := hbound p (List.mem_cons_self p rest)
      simp only [List.filter_cons, List.dropWhile_cons]
      simp [hpt, hcond1, hcond2]
      intro a b hq
      have h1 := hp (a, b) hq
      have h2 := hbound (a, b) (List.mem_cons_of_mem p hq)
      simp only at h1 h2
      omega

/-- C5 counterexample: with rows at timestamps 0, 5, 10 and the holdout
window ending at 7, the boundary 5 lies strictly between the first and
last timestamps, yet the row at timestamp 10 lands in neither partition:
the two partitions do not cover the feature sequence. -/
theorem split_coverage_counterexample :
    (0 : ℕ) < 5 ∧ (5 : ℕ) < 10
    ∧ (trainTestSplit [(0, 1), (5, 2), (10, 3)] 5 7).1 = [(0, 1)]
    ∧ (trainTestSplit [(0, 1), (5, 2), (10, 3)] 5 7).2 = [(5, 2)]
    ∧ ((10, 3) : ℕ × ℚ) ∉ (trainTestSplit [(0, 1), (5, 2), (10, 3)] 5 7).1
    ∧ ((10, 3) : ℕ × ℚ) ∉ (trainTestSplit [(0, 1), (5, 2), (10, 3)] 5 7).2 := by
  refine ⟨by decide, by decide, ?_, ?_, ?_, ?_⟩ <;> decide

/-- C5 (amended): for strictly increasing timestamps, a boundary `t` with
first < t ≤ last, and every timestamp at most the holdout end cutoff `e`,
the split yields two disjoint timestamp-contiguous partitions (a
`takeWhile`/`dropWhile` decomposition) covering the whole sequence, both
non-empty, with every train timestamp strictly below every holdout
timestamp. -/
theorem split_chronological_partition (feats : List (ℕ × ℚ)) (t e : ℕ)
    (hs : List.Pairwise (fun p q => p.1 < q.1) feats)
    (hne : feats ≠ [])
    (hlow : (feats.head hne).1 < t)
    (hhigh : t ≤ (feats.getLast hne).1)
    (hbound : ∀ p ∈ feats, p.1 ≤ e) :
    (trainTestSplit feats t e).1 = feats.takeWhile (fun p => p.1 < t)
    ∧ (trainTestSplit feats t e).2 = feats.dropWhile (fun p => p.1 < t)
    ∧ (trainTestSplit feats t e).1 ++ (trainTestSplit feats t e).2 = feats
    ∧ (trainTestSplit feats t e).1 ≠ []
    ∧ (trainTestSplit feats t e).2 ≠ []
    ∧ (∀ p ∈ (trainTestSplit feats t e).1, ∀ q ∈ (trainTestSplit feats t e).2, p.1 < q.1)
    ∧ (∀ p ∈ (trainTestSplit feats t e).1, p ∉ (trainTestSplit feats t e).2) := by
  have htr : (trainTestSplit feats t e).1 = feats.takeWhile (fun p => p.1 < t) :=
    filter_lt_eq_takeWhile feats t hs
  have hho : (trainTestSplit feats t e).2 = feats.dropWhile (fun p => p.1 < t) :=
    filter_window_eq_dropWhile feats t e hs hbound
  have hmemtr : ∀ p ∈ (trainTestSplit feats t e).1, p ∈ feats ∧ p.1 < t := by
    intro p hp
    have := List.mem_filter.mp hp
    simpa using this
  have hmemho : ∀ q ∈ (trainTestSplit feats t e).2, q ∈ feats ∧ t ≤ q.1 ∧ q.1 ≤ e := by
    intro q hq
    have := List.mem_filter.mp hq
    simpa using this
  refine ⟨htr, hho, ?_, ?_, ?_, ?_, ?_⟩
  · rw [htr, hho]
    exact List.takeWhile_append_dropWhile _ feats
  · have hhead : feats.head hne ∈ (trainTestSplit feats t e).1 := by
      apply List.mem_filter.mpr
      exact ⟨List.head_mem hne, by simpa using hlow⟩
    exact List.ne_nil_of_mem hhead
  · have hlast : feats.getLast hne ∈ (trainTestSplit feats t e).2 := by
      apply List.mem_filter.mpr
      refine ⟨List.getLast_mem hne, ?_⟩
      have hle : (feats.getLast hne).1 ≤ e := hbound _ (List.getLast_mem hne)
      simp only [decide_eq_true_eq]
      exact ⟨hhigh, hle⟩
    exact List.ne_nil_of_mem hlast
  · intro p hp q hq
    have h1 := (hmemtr p hp).2
    have h2 := (hmemho q hq).2.1
    omega
  · intro p hp hq
    have h1 := (hmemtr p hp).2
    have h2 := (hmemho p hq).2.1
    omega

/-- C5 witness: the amended split theorem applied to three rows at
timestamps 1, 2, 3 with boundary 2 and cutoff 5. -/
theorem split_chronological_partition_witness :
    (trainTestSplit [(1, 10), (2, 20), (3, 30)] 2 5).1 ≠ []
    ∧ (trainTestSplit [(1, 10), (2, 20), (3, 30)] 2 5).2 ≠ []
    ∧ (trainTestSplit [(1, 10), (2, 20), (3, 30)] 2 5).1 ++
        (trainTestSplit [(1, 10), (2, 20), (3, 30)] 2 5).2 = [(1, 10), (2, 20), (3, 30)]
    ∧ (∀ p ∈ (trainTestSplit [(1, 10), (2, 20), (3, 30)] 2 5).1,
        ∀ q ∈ (trainTestSplit [(1, 10), (2, 20), (3, 30)] 2 5).2, p.1 < q.1) :=
  have h := split_chronological_partition [(1, 10), (2, 20), (3, 30)] 2 5
    (by decide) (by decide) (by decide) (by decide) (by decide)
  ⟨h.2.2.2.1, h.2.2.2.2.1, h.2.2.1, h.2.2.2.2.2.1⟩

/-- C6 counterexample: splitting an 8-row feature sequence at a boundary
(0) before its first timestamp (1) returns normally with an empty train
partition and all 8 rows in the holdout partition — `train_model`
performs no emptiness check, so no EmptySplitError (or any error) arises
from the split itself. -/
theorem split_empty_train_counterexample :
    (trainTestSplit
        [(1, 1), (2, 2), (3, 3), (4, 4), (5, 5), (6, 6), (7, 7), (8, 8)] 0 100).1 = []
    ∧ (trainTestSplit
        [(1, 1), (2, 2), (3, 3), (4, 4), (5, 5), (6, 6), (7, 7), (8, 8)] 0 100).2 =
        [(1, 1), (2, 2), (3, 3), (4, 4), (5, 5), (6, 6), (7, 7), (8, 8)]
    ∧ ([(1, 1), (2, 2), (3, 3), (4, 4), (5, 5), (6, 6), (7, 7), (8, 8)] :
        List (ℕ × ℚ)).length = 8 := by
  refine ⟨?_, ?_, ?_⟩ <;> decide

/-- C6 (amended): a boundary at or before every timestamp yields an empty
train partition, and the split still returns its filter-defined result
(the code has no emptiness check and raises nothing). -/
theorem split_empty_train_no_error (feats : List (ℕ × ℚ)) (t e : ℕ)
    (h : ∀ p ∈ feats, t ≤ p.1) :
    (trainTestSplit feats t e).1 = []
    ∧ (trainTestSplit feats t e).2 = feats.filter (fun p => t ≤ p.1 ∧ p.1 ≤ e) := by
  constructor
  · apply List.filter_eq_nil_iff.mpr
    intro p hp
    have := h p hp
    simp only [decide_eq_true_eq]
    omega
  · rfl

/-- C6 witness: applied to the 8-row sequence with boundary 0. -/
theorem split_empty_train_no_error_witness :
    (trainTestSplit
        [(1, 1), (2, 2), (3, 3), (4, 4), (5, 5), (6, 6), (7, 7), (8, 8)] 0 100).1 = []
    ∧ (trainTestSplit
        [(1, 1), (2, 2), (3, 3), (4, 4), (5, 5), (6, 6), (7, 7), (8, 8)] 0 100).2 =
      List.filter (fun p => 0 ≤ p.1 ∧ p.1 ≤ 100)
        [(1, 1), (2, 2), (3, 3), (4, 4), (5, 5), (6, 6), (7, 7), (8, 8)] :=
  split_empty_train_no_error
    [(1, 1), (2, 2), (3, 3), (4, 4), (5, 5), (6, 6), (7, 7), (8, 8)] 0 100
    (by decide)

/-! ### Pandas float values with missing data (NaN) and infinities

The RSI pipeline in `main.py` divides rolling means that can be zero, so
its values live in IEEE floats where `x/0 = ±inf` for `x ≠ 0` and
`0/0 = NaN`; `diff()` and `rolling()` produce NaN as missing data.
`PFloat` models exactly the float values reachable here: NaN, the two
infinities, and finite values (as rationals). -/

inductive PFloat : Type where
  | nan : PFloat
  | inf : PFloat
  | neginf : PFloat
  | fin : ℚ → PFloat
deriving DecidableEq

/-- IEEE negation. -/
def pneg : PFloat → PFloat
  | .nan => .nan
  | .inf => .neginf
  | .neginf => .inf
  | .fin q => .fin (-q)

/-- IEEE addition (NaN propagates; `inf + (−inf) = NaN`). -/
def padd : PFloat → PFloat → PFloat
  | .nan, _ => .nan
  | _, .nan => .nan
  | .inf, .neginf => .nan
  | .neginf, .inf => .nan
  | .inf, _ => .inf
  | _, .inf => .inf
  | .neginf, _ => .neginf
  | _, .neginf => .neginf
  | .fin a, .fin b => .fin (a + b)

/-- IEEE subtraction. -/
def psub (x y : PFloat) : PFloat := padd x (pneg y)

/-- IEEE division: NaN propagates, `±inf/±inf = NaN`, a nonzero finite
value divided by zero gives a signed infinity, `0/0 = NaN`, and a finite
value divided by an infinity gives 0. -/
def pdiv : PFloat → PFloat → PFloat
  | .nan, _ => .nan
  | _, .nan => .nan
  | .inf, .inf => .nan
  | .inf, .neginf => .nan
  | .neginf, .inf => .nan
  | .neginf, .neginf => .nan
  | .inf, .fin b => if b < 0 then .neginf else .inf
  | .neginf, .fin b => if b < 0 then .inf else .neginf
  | .fin _, .inf => .fin 0
  | .fin _, .neginf => .fin 0
  | .fin a, .fin b =>
    if b = 0 then (if a = 0 then .nan else if 0 < a then .inf else .neginf)
    else .fin (a / b)

/-- `Series.clip(lower=0)`: elementwise `max(·, 0)`, NaN kept. -/
def clipLower0 : PFloat → PFloat
  | .nan => .nan
  | .inf => .inf
  | .neginf => .fin 0
  | .fin q => .fin (max q 0)

/-- `Series.clip(upper=0)`: elementwise `min(·, 0)`, NaN kept. -/
def clipUpper0 : PFloat → PFloat
  | .nan => .nan
  | .inf => .fin 0
  | .neginf => .neginf
  | .fin q => .fin (min q 0)

def isFin : PFloat → Bool
  | .fin _ => true
  | _ => false

def finVal : PFloat → ℚ
  | .fin q => q
  | _ => 0

/-- `delta = df['Close'].diff()` as a float series: NaN first, then the
consecutive differences. -/
def deltaP (closes : List ℚ) : List PFloat :=
  match closes with
  | [] => []
  | c :: cs => .nan :: List.zipWith (fun x y => PFloat.fin (x - y)) cs (c :: cs)

/-- `gain = delta.clip(lower=0)`. -/
def gainP (closes : List ℚ) : List PFloat := (deltaP closes).map clipLower0

/-- `loss = -delta.clip(upper=0)`. -/
def lossP (closes : List ℚ) : List PFloat :=
  (deltaP closes).map (fun d => pneg (clipUpper0 d))

/-- `Series.rolling(w).mean()` with the default `min_periods = w`: the
trailing-`w` mean, NaN while fewer than `w` observations exist or while
the window still contains a NaN. -/
def rollingMeanP (w : ℕ) (xs : List PFloat) : List PFloat :=
  (List.range xs.length).map (fun i =>
    if i + 1 < w then PFloat.nan
    else if ((xs.drop (i + 1 - w)).take w).all isFin then
      PFloat.fin ((((xs.drop (i + 1 - w)).take w).map finVal).sum / (w : ℚ))
    else PFloat.nan)

/-- `avg_gain = gain.rolling(14).mean()`. -/
def avgGain (closes : List ℚ) : List PFloat := rollingMeanP 14 (gainP closes)

/-- `avg_loss = loss.rolling(14).mean()`. -/
def avgLoss (closes : List ℚ) : List PFloat := rollingMeanP 14 (lossP closes)

/-- `rs = avg_gain / avg_loss`. -/
def rsP (closes : List ℚ) : List PFloat :=
  List.zipWith pdiv (avgGain closes) (avgLoss closes)

/-- `df['RSI'] = 100 - (100 / (1 + rs))`. -/
def rsi (closes : List ℚ) : List PFloat :=
  (rsP closes).map (fun r => psub (.fin 100) (pdiv (.fin 100) (padd (.fin 1) r)))

/-! ### Volume anomaly detection (`app.py`)

`data['Volume SMA20'] = data['Volume'].rolling(window=20).mean()` and
`data['Volume_Shock'] = (data['Volume'] > (2 * vol_sma)).astype(int)`;
a comparison against NaN is false. -/

/-- The 20-bar rolling mean of the (NaN-free) volume series. -/
def volumeSMA20 (volumes : List ℚ) : List PFloat :=
  rollingMeanP 20 (volumes.map PFloat.fin)

/-- The volume-shock flag: volume strictly above twice the rolling
baseline; false wherever the baseline is NaN. -/
def volumeShock (volumes : List ℚ) : List Bool :=
  List.zipWith
    (fun v m => match m with
      | PFloat.fin q => decide (2 * q < v)
      | _ => false)
    volumes (volumeSMA20 volumes)

theorem length_rollingMeanP (w : ℕ) (xs : List PFloat) :
    (rollingMeanP w xs).length = xs.length := by
  simp [rollingMeanP]

theorem rollingMeanP_getD (w : ℕ) (xs : List PFloat) (i : ℕ) (hi : i < xs.length) :
    (rollingMeanP w xs).getD i .nan =
      if i + 1 < w then PFloat.nan
      else if ((xs.drop (i + 1 - w)).take w).all isFin then
        PFloat.fin ((((xs.drop (i + 1 - w)).take w).map finVal).sum / (w : ℚ))
      else PFloat.nan := by
  have h1 : i < (rollingMeanP w xs).length := by
    rw [length_rollingMeanP]; exact hi
  rw [List.getD_eq_getElem _ _ h1]
  simp only [rollingMeanP, List.getElem_map, List.getElem_range]

theorem length_volumeSMA20 (volumes : List ℚ) :
    (volumeSMA20 volumes).length = volumes.length := by
  simp [volumeSMA20, length_rollingMeanP]

theorem volumeSMA20_getD_defined (volumes : List ℚ) (i : ℕ)
    (h19 : 19 ≤ i) (hi : i < volumes.length) :
    (volumeSMA20 volumes).getD i .nan =
      PFloat.fin (((volumes.drop (i + 1 - 20)).take 20).sum / 20) := by
  have hlen : i < (volumes.map PFloat.fin).length := by simpa using hi
  rw [volumeSMA20, rollingMeanP_getD 20 (volumes.map PFloat.fin) i hlen]
  have hcond : ¬(i + 1 < 20) := by omega
  rw [if_neg hcond]
  have hwin : ((volumes.map PFloat.fin).drop (i + 1 - 20)).take 20 =
      ((volumes.drop (i + 1 - 20)).take 20).map PFloat.fin := by
    rw [← List.map_drop, ← List.map_take]
  rw [hwin]
  have hall : (((volumes.drop (i + 1 - 20)).take 20).map PFloat.fin).all isFin = true := by
    rw [List.all_eq_true]
    intro x hx
    rcases List.mem_map.mp hx with ⟨q, hq, rfl⟩
    rfl
  rw [if_pos hall, List.map_map]
  have hvals : (((volumes.drop (i + 1 - 20)).take 20).map (finVal ∘ PFloat.fin)) =
      (volumes.drop (i + 1 - 20)).take 20 := by
    have : finVal ∘ PFloat.fin = id := by
      funext q
      rfl
    rw [this, List.map_id]
  rw [hvals]
  norm_num

theorem length_volumeShock (volumes : List ℚ) :
    (volumeShock volumes).length = volumes.length := by
  simp [volumeShock, length_volumeSMA20]

theorem volumeShock_getD (volumes : List ℚ) (i : ℕ) (hi : i < volumes.length) :
    (volumeShock volumes).getD i false =
      match (volumeSMA20 volumes).getD i .nan with
      | PFloat.fin q => decide (2 * q < volumes.getD i 0)
      | _ => false := by
  have h1 : i < (volumeShock volumes).length := by
    rw [length_volumeShock]; exact hi
  have h2 : i < (volumeSMA20 volumes).length := by
    rw [length_volumeSMA20]; exact hi
  rw [List.getD_eq_getElem _ _ h1, List.getD_eq_getElem _ _ h2,
    List.getD_eq_getElem _ _ hi]
  simp only [volumeShock, List.getElem_zipWith]

/-- C9: the anomaly flag is true exactly when the bar volume strictly
exceeds twice the trailing 20-bar average volume, and it is false at all
positions where that baseline is undefined (the first 19 bars). -/
theorem volume_shock_threshold (volumes : List ℚ) :
    (volumeShock volumes).length = volumes.length
    ∧ (∀ i, i < 19 → (volumeShock volumes).getD i false = false)
    ∧ (∀ i, 19 ≤ i → i < volumes.length →
        ((volumeShock volumes).getD i false = true ↔
          2 * (((volumes.drop (i + 1 - 20)).take 20).sum / 20) < volumes.getD i 0)) := by
  refine ⟨length_volumeShock volumes, ?_, ?_⟩
  · intro i hi19
    by_cases hi : i < volumes.length
    · rw [volumeShock_getD volumes i hi]
      have hsma : (volumeSMA20 volumes).getD i .nan = .nan := by
        have hlen : i < (volumes.map PFloat.fin).length := by simpa using hi
        rw [volumeSMA20, rollingMeanP_getD 20 (volumes.map PFloat.fin) i hlen]
        rw [if_pos (by omega)]
      rw [hsma]
    · have : (volumeShock volumes).length ≤ i := by
        rw [length_volumeShock]; omega
      rw [List.getD_eq_default _ _ this]
  · intro i h19 hi
    rw [volumeShock_getD volumes i hi, volumeSMA20_getD_defined volumes i h19 hi]
    simp only [decide_eq_true_eq]

/-- C9 witness: applied to a 20-bar volume series, discharging the
position hypotheses at bars 0 (undefined baseline) and 19 (first defined
baseline). -/
theorem volume_shock_threshold_witness :
    (volumeShock [1, 1, 1, 1, 1, 1, 1, 1, 1, 1, 1, 1, 1, 1, 1, 1, 1, 1, 1, 50]).getD 0
        false = false
    ∧ ((volumeShock [1, 1, 1, 1, 1, 1, 1, 1, 1, 1, 1, 1, 1, 1, 1, 1, 1, 1, 1, 50]).getD 19
        false = true ↔
        2 * (((([1, 1, 1, 1, 1, 1, 1, 1, 1, 1, 1, 1, 1, 1, 1, 1, 1, 1, 1, 50] : List ℚ).drop
            (19 + 1 - 20)).take 20).sum / 20) <
          ([1, 1, 1, 1, 1, 1, 1, 1, 1, 1, 1, 1, 1, 1, 1, 1, 1, 1, 1, 50] : List ℚ).getD 19 0) :=
  ⟨(volume_shock_threshold
      [1, 1, 1, 1, 1, 1, 1, 1, 1, 1, 1, 1, 1, 1, 1, 1, 1, 1, 1, 50]).2.1 0 (by decide),
   (volume_shock_threshold
      [1, 1, 1, 1, 1, 1, 1, 1, 1, 1, 1, 1, 1, 1, 1, 1, 1, 1, 1, 50]).2.2 19 (by decide)
      (by decide)⟩

/-! ### Pointwise RSI development -/

theorem length_deltaP (closes : List ℚ) : (deltaP closes).length = closes.length := by
  cases closes with
  | nil => rfl
  | cons c cs => simp [deltaP]

theorem length_gainP (closes : List ℚ) : (gainP closes).length = closes.length := by
  simp [gainP, length_deltaP]

theorem length_lossP (closes : List ℚ) : (lossP closes).length = closes.length := by
  simp [lossP, length_deltaP]

theorem length_avgGain (closes : List ℚ) : (avgGain closes).length = closes.length := by
  simp [avgGain, length_rollingMeanP, length_gainP]

theorem length_avgLoss (closes : List ℚ) : (avgLoss closes).length = closes.length := by
  simp [avgLoss, length_rollingMeanP, length_lossP]

theorem length_rsP (closes : List ℚ) : (rsP closes).length = closes.length := by
  simp [rsP, length_avgGain, length_avgLoss]

theorem length_rsi (closes : List ℚ) : (rsi closes).length = closes.length := by
  simp [rsi, length_rsP]

theorem deltaP_shape (closes : List ℚ) :
    ∀ d ∈ deltaP closes, d = PFloat.nan ∨ ∃ r, d = PFloat.fin r := by
  cases closes with
  | nil => intro d hd; simp [deltaP] at hd
  | cons c cs =>
    intro d hd
    simp only [deltaP, List.mem_cons] at hd
    rcases hd with h | h
    · exact Or.inl h
    · right
      induction cs generalizing c with
      | nil => simp at h
      | cons x rest ih =>
        simp only [List.zipWith_cons_cons, List.mem_cons] at h
        rcases h with h | h
        · exact ⟨x - c, h⟩
        · exact ih x h

theorem gainP_shape (closes : List ℚ) :
    ∀ x ∈ gainP closes, x = PFloat.nan ∨ ∃ q, x = PFloat.fin q ∧ 0 ≤ q := by
  intro x hx
  rcases List.mem_map.mp hx with ⟨d, hd, rfl⟩
  rcases deltaP_shape closes d hd with h | ⟨r, rfl⟩
  · subst h; exact Or.inl rfl
  · exact Or.inr ⟨max r 0, rfl, le_max_right r 0⟩

theorem lossP_shape (closes : List ℚ) :
    ∀ x ∈ lossP closes, x = PFloat.nan ∨ ∃ q, x = PFloat.fin q ∧ 0 ≤ q := by
  intro x hx
  rcases List.mem_map.mp hx with ⟨d, hd, rfl⟩
  rcases deltaP_shape closes d hd with h | ⟨r, rfl⟩
  · subst h; exact Or.inl rfl
  · refine Or.inr ⟨-(min r 0), rfl, ?_⟩
    have : min r 0 ≤ 0 := min_le_right r 0
    linarith

theorem rollingMeanP_shape (w : ℕ) (xs : List PFloat)
    (hxs : ∀ x ∈ xs, x = PFloat.nan ∨ ∃ q, x = PFloat.fin q ∧ 0 ≤ q) (i : ℕ) :
    (rollingMeanP w xs).getD i .nan = PFloat.nan
    ∨ ∃ m, (rollingMeanP w xs).getD i .nan = PFloat.fin m ∧ 0 ≤ m := by
  by_cases hi : i < xs.length
  · rw [rollingMeanP_getD w xs i hi]
    split_ifs with h1 h2
    · exact Or.inl rfl
    · refine Or.inr ⟨_, rfl, ?_⟩
      apply div_nonneg
      · apply List.sum_nonneg
        intro q hq
        rcases List.mem_map.mp hq with ⟨x, hxw, rfl⟩
        have hxmem : x ∈ xs :=
          List.drop_subset _ _ (List.take_subset _ _ hxw)
        rcases hxs x hxmem with h | ⟨r, rfl, hr⟩
        · subst h; simp [finVal]
        · simpa [finVal] using hr
      · exact Nat.cast_nonneg w
    · exact Or.inl rfl
  · left
    apply List.getD_eq_default
    rw [length_rollingMeanP]
    omega

theorem rsP_getD (closes : List ℚ) (i : ℕ) (hi : i < closes.length) :
    (rsP closes).getD i .nan =
      pdiv ((avgGain closes).getD i .nan) ((avgLoss closes).getD i .nan) := by
  have h2 : i < (rsP closes).length := by rw [length_rsP]; exact hi
  have hg : i < (avgGain closes).length := by rw [length_avgGain]; exact hi
  have hl : i < (avgLoss closes).length := by rw [length_avgLoss]; exact hi
  rw [List.getD_eq_getElem _ _ h2, List.getD_eq_getElem _ _ hg,
    List.getD_eq_getElem _ _ hl]
  simp only [rsP, List.getElem_zipWith]

theorem rsi_getD (closes : List ℚ) (i : ℕ) (hi : i < closes.length) :
    (rsi closes).getD i .nan =
      psub (.fin 100) (pdiv (.fin 100) (padd (.fin 1)
        (pdiv ((avgGain closes).getD i .nan) ((avgLoss closes).getD i .nan)))) := by
  have h1 : i < (rsi closes).length := by rw [length_rsi]; exact hi
  have h2 : i < (rsP closes).length := by rw [length_rsP]; exact hi
  rw [List.getD_eq_getElem _ _ h1]
  simp only [rsi, List.getElem_map]
  rw [← List.getD_eq_getElem _ _ h2, rsP_getD closes i hi]

theorem avgGain_undefined (closes : List ℚ) (i : ℕ)
    (hi : i < closes.length) (h14 : i < 14) :
    (avgGain closes).getD i .nan = PFloat.nan := by
  have hlen : i < (gainP closes).length := by rw [length_gainP]; exact hi
  rw [avgGain, rollingMeanP_getD 14 (gainP closes) i hlen]
  by_cases h : i + 1 < 14
  · rw [if_pos h]
  · rw [if_neg h]
    have h0 : i + 1 - 14 = 0 := by omega
    rw [h0, List.drop_zero]
    cases closes with
    | nil => simp at hi
    | cons c cs =>
      have hg : gainP (c :: cs) =
          PFloat.nan ::
            (List.zipWith (fun x y => PFloat.fin (x - y)) cs (c :: cs)).map clipLower0 := by
        cases cs <;> rfl
      rw [hg]
      rw [show (14 : ℕ) = 13 + 1 from rfl, List.take_succ_cons]
      simp [isFin]

theorem pdiv_nan_left (x : PFloat) : pdiv .nan x = .nan := by
  cases x <;> rfl

theorem pdiv_fin_nan (a : ℚ) : pdiv (.fin a) .nan = .nan := rfl

theorem padd_fin_nan (a : ℚ) : padd (.fin a) .nan = .nan := rfl

theorem psub_fin_nan (a : ℚ) : psub (.fin a) .nan = .nan := rfl

theorem padd_fin_inf (a : ℚ) : padd (.fin a) .inf = .inf := rfl

theorem pdiv_fin_inf (a : ℚ) : pdiv (.fin a) .inf = .fin 0 := rfl

theorem padd_fin_fin (a b : ℚ) : padd (.fin a) (.fin b) = .fin (a + b) := rfl

theorem psub_fin_fin (a b : ℚ) : psub (.fin a) (.fin b) = .fin (a - b) := by
  simp [psub, padd, pneg, sub_eq_add_neg]

theorem pdiv_fin_fin (a b : ℚ) (hb : b ≠ 0) : pdiv (.fin a) (.fin b) = .fin (a / b) := by
  simp [pdiv, hb]

theorem pdiv_fin_zero_pos (a : ℚ) (ha : 0 < a) : pdiv (.fin a) (.fin 0) = .inf := by
  simp [pdiv, ne_of_gt ha, ha]

theorem pdiv_fin_zero_zero : pdiv (.fin 0) (.fin 0) = .nan := by
  simp [pdiv]

/-- C8 (amended): RSI is undefined (NaN) at the first 14 positions of
every close series; wherever it is a finite value it lies in [0, 100];
whenever the rolling averages are finite with `avgLoss > 0` it equals
`100 − 100/(1 + avgGain/avgLoss)`; and when `avgLoss = 0` with
`avgGain > 0` the float arithmetic (`rs = +inf`) yields exactly 100.
(When `avgGain` and `avgLoss` are both 0 the value is NaN, not 100 —
see the counterexample.) -/
theorem rsi_properties (closes : List ℚ) :
    (rsi closes).length = closes.length
    ∧ (∀ i, i < 14 → (rsi closes).getD i .nan = .nan)
    ∧ (∀ i q, (rsi closes).getD i .nan = .fin q → 0 ≤ q ∧ q ≤ 100)
    ∧ (∀ i g l, (avgGain closes).getD i .nan = .fin g →
        (avgLoss closes).getD i .nan = .fin l → 0 < l →
        (rsi closes).getD i .nan = .fin (100 - 100 / (1 + g / l)))
    ∧ (∀ i g, (avgGain closes).getD i .nan = .fin g → 0 < g →
        (avgLoss closes).getD i .nan = .fin 0 →
        (rsi closes).getD i .nan = .fin 100) := by
  have hGshape : ∀ i, (avgGain closes).getD i .nan = PFloat.nan
      ∨ ∃ m, (avgGain closes).getD i .nan = PFloat.fin m ∧ 0 ≤ m :=
    rollingMeanP_shape 14 (gainP closes) (gainP_shape closes)
  have hLshape : ∀ i, (avgLoss closes).getD i .nan = PFloat.nan
      ∨ ∃ m, (avgLoss closes).getD i .nan = PFloat.fin m ∧ 0 ≤ m :=
    rollingMeanP_shape 14 (lossP closes) (lossP_shape closes)
  have hiOf : ∀ i g, (avgGain closes).getD i .nan = PFloat.fin g → i < closes.length := by
    intro i g hg
    by_contra h
    have hle : (avgGain closes).length ≤ i := by rw [length_avgGain]; omega
    rw [List.getD_eq_default _ _ hle] at hg
    exact PFloat.noConfusion hg
  refine ⟨length_rsi closes, ?_, ?_, ?_, ?_⟩
  · intro i h14
    by_cases hi : i < closes.length
    · rw [rsi_getD closes i hi, avgGain_undefined closes i hi h14, pdiv_nan_left,
        padd_fin_nan, pdiv_fin_nan, psub_fin_nan]
    · have hle : (rsi closes).length ≤ i := by rw [length_rsi]; omega
      exact List.getD_eq_default _ _ hle
  · intro i q hq
    have hi : i < closes.length := by
      by_contra h
      have hle : (rsi closes).length ≤ i := by rw [length_rsi]; omega
      rw [List.getD_eq_default _ _ hle] at hq
      exact PFloat.noConfusion hq
    rw [rsi_getD closes i hi] at hq
    rcases hGshape i with hG | ⟨g, hG, hg0⟩
    · rw [hG, pdiv_nan_left, padd_fin_nan, pdiv_fin_nan, psub_fin_nan] at hq
      exact PFloat.noConfusion hq
    · rw [hG] at hq
      rcases hLshape i with hL | ⟨l, hL, hl0⟩
      · rw [hL, pdiv_fin_nan, padd_fin_nan, pdiv_fin_nan, psub_fin_nan] at hq
        exact PFloat.noConfusion hq
      · rw [hL] at hq
        by_cases hl : l = 0
        · subst hl
          by_cases hgz : g = 0
          · subst hgz
            rw [pdiv_fin_zero_zero, padd_fin_nan, pdiv_fin_nan, psub_fin_nan] at hq
            exact PFloat.noConfusion hq
          · have hgpos : 0 < g := lt_of_le_of_ne hg0 (Ne.symm hgz)
            rw [pdiv_fin_zero_pos g hgpos, padd_fin_inf, pdiv_fin_inf,
              psub_fin_fin] at hq
            injection hq with h
            subst h
            constructor <;> norm_num
        · have hlpos : 0 < l := lt_of_le_of_ne hl0 (Ne.symm hl)
          have hx : (0 : ℚ) ≤ g / l := div_nonneg hg0 hl0
          have hne : (1 : ℚ) + g / l ≠ 0 := by linarith
          rw [pdiv_fin_fin g l hl, padd_fin_fin, pdiv_fin_fin 100 _ hne,
            psub_fin_fin] at hq
          injection hq with h
          subst h
          have h1 : 100 / (1 + g / l) ≤ 100 := div_le_self (by norm_num) (by linarith)
          have h2 : 0 < 100 / (1 + g / l) := div_pos (by norm_num) (by linarith)
          constructor <;> linarith
  · intro i g l hg hl hlpos
    have hi : i < closes.length := hiOf i g hg
    have hg0 : 0 ≤ g := by
      rcases hGshape i with hG | ⟨m, hG, hm⟩
      · rw [hg] at hG
        exact PFloat.noConfusion hG
      · rw [hg] at hG
        injection hG with h
        rw [h]
        exact hm
    have hne : (1 : ℚ) + g / l ≠ 0 := by
      have : (0 : ℚ) ≤ g / l := div_nonneg hg0 hlpos.le
      linarith
    rw [rsi_getD closes i hi, hg, hl, pdiv_fin_fin g l (ne_of_gt hlpos), padd_fin_fin,
      pdiv_fin_fin 100 _ hne, psub_fin_fin]
  · intro i g hg hgpos hl
    have hi : i < closes.length := hiOf i g hg
    rw [rsi_getD closes i hi, hg, hl, pdiv_fin_zero_pos g hgpos, padd_fin_inf,
      pdiv_fin_inf, psub_fin_fin]
    norm_num

/-- C8 counterexample: on 15 flat closes every price change is 0, so at
position 14 both rolling averages are (finite) 0 — the claim's
"avgLoss = 0" case — yet `rs = 0/0` is NaN and the RSI is NaN
(undefined), not the claimed 100. -/
theorem rsi_flat_nan_counterexample :
    (avgLoss [10, 10, 10, 10, 10, 10, 10, 10, 10, 10, 10, 10, 10, 10, 10]).getD 14 .nan
      = PFloat.fin 0
    ∧ (avgGain [10, 10, 10, 10, 10, 10, 10, 10, 10, 10, 10, 10, 10, 10, 10]).getD 14 .nan
      = PFloat.fin 0
    ∧ (rsi [10, 10, 10, 10, 10, 10, 10, 10, 10, 10, 10, 10, 10, 10, 10]).getD 14 .nan
      = PFloat.nan := by
  have hloss : lossP [10, 10, 10, 10, 10, 10, 10, 10, 10, 10, 10, 10, 10, 10, 10] =
      PFloat.nan :: [PFloat.fin 0, .fin 0, .fin 0, .fin 0, .fin 0, .fin 0, .fin 0,
        .fin 0, .fin 0, .fin 0, .fin 0, .fin 0, .fin 0, .fin 0] := by
    norm_num [lossP, deltaP, clipUpper0, pneg, min_def]
  have hgain : gainP [10, 10, 10, 10, 10, 10, 10, 10, 10, 10, 10, 10, 10, 10, 10] =
      PFloat.nan :: [PFloat.fin 0, .fin 0, .fin 0, .fin 0, .fin 0, .fin 0, .fin 0,
        .fin 0, .fin 0, .fin 0, .fin 0, .fin 0, .fin 0, .fin 0] := by
    norm_num [gainP, deltaP, clipLower0, max_def]
  have hAvgLoss : (avgLoss [10, 10, 10, 10, 10, 10, 10, 10, 10, 10, 10, 10, 10, 10, 10]).getD
      14 .nan = PFloat.fin 0 := by
    have hlen : (14 : ℕ) <
        (lossP [10, 10, 10, 10, 10, 10, 10, 10, 10, 10, 10, 10, 10, 10, 10]).length := by
      rw [length_lossP]; norm_num
    rw [avgLoss, rollingMeanP_getD 14 _ 14 hlen, hloss]
    norm_num [isFin, finVal]
  have hAvgGain : (avgGain [10, 10, 10, 10, 10, 10, 10, 10, 10, 10, 10, 10, 10, 10, 10]).getD
      14 .nan = PFloat.fin 0 := by
    have hlen : (14 : ℕ) <
        (gainP [10, 10, 10, 10, 10, 10, 10, 10, 10, 10, 10, 10, 10, 10, 10]).length := by
      rw [length_gainP]; norm_num
    rw [avgGain, rollingMeanP_getD 14 _ 14 hlen, hgain]
    norm_num [isFin, finVal]
  refine ⟨hAvgLoss, hAvgGain, ?_⟩
  rw [rsi_getD _ 14 (by norm_num), hAvgGain, hAvgLoss, pdiv_fin_zero_zero,
    padd_fin_nan, pdiv_fin_nan, psub_fin_nan]

/-- C8 witness: the RSI theorem applied to concrete 15-bar series — an
alternating series (both rolling averages 1/2, RSI = 50) discharging the
formula and boundedness hypotheses, and a strictly increasing series
(avgLoss = 0, avgGain = 1, RSI = 100) discharging the avgLoss-zero case. -/
theorem rsi_properties_witness :
    (rsi [2, 1, 2, 1, 2, 1, 2, 1, 2, 1, 2, 1, 2, 1, 2]).getD 0 .nan = PFloat.nan
    ∧ (rsi [2, 1, 2, 1, 2, 1, 2, 1, 2, 1, 2, 1, 2, 1, 2]).getD 14 .nan =
        PFloat.fin (100 - 100 / (1 + (1 / 2 : ℚ) / (1 / 2)))
    ∧ (0 ≤ (100 : ℚ) - 100 / (1 + (1 / 2 : ℚ) / (1 / 2))
        ∧ (100 : ℚ) - 100 / (1 + (1 / 2 : ℚ) / (1 / 2)) ≤ 100)
    ∧ (rsi [1, 2, 3, 4, 5, 6, 7, 8, 9, 10, 11, 12, 13, 14, 15]).getD 14 .nan =
        PFloat.fin 100 := by
  have hAgain : (avgGain [2, 1, 2, 1, 2, 1, 2, 1, 2, 1, 2, 1, 2, 1, 2]).getD 14 .nan =
      PFloat.fin (1 / 2) := by
    have hg : gainP [2, 1, 2, 1, 2, 1, 2, 1, 2, 1, 2, 1, 2, 1, 2] =
        PFloat.nan :: [PFloat.fin 0, .fin 1, .fin 0, .fin 1, .fin 0, .fin 1, .fin 0,
          .fin 1, .fin 0, .fin 1, .fin 0, .fin 1, .fin 0, .fin 1] := by
      norm_num [gainP, deltaP, clipLower0, max_def]
    have hlen : (14 : ℕ) <
        (gainP [2, 1, 2, 1, 2, 1, 2, 1, 2, 1, 2, 1, 2, 1, 2]).length := by
      rw [length_gainP]; norm_num
    rw [avgGain, rollingMeanP_getD 14 _ 14 hlen, hg]
    norm_num [isFin, finVal]
  have hAloss : (avgLoss [2, 1, 2, 1, 2, 1, 2, 1, 2, 1, 2, 1, 2, 1, 2]).getD 14 .nan =
      PFloat.fin (1 / 2) := by
    have hl : lossP [2, 1, 2, 1, 2, 1, 2, 1, 2, 1, 2, 1, 2, 1, 2] =
        PFloat.nan :: [PFloat.fin 1, .fin 0, .fin 1, .fin 0, .fin 1, .fin 0, .fin 1,
          .fin 0, .fin 1, .fin 0, .fin 1, .fin 0, .fin 1, .fin 0] := by
      norm_num [lossP, deltaP, clipUpper0, pneg, min_def]
    have hlen : (14 : ℕ) <
        (lossP [2, 1, 2, 1, 2, 1, 2, 1, 2, 1, 2, 1, 2, 1, 2]).length := by
      rw [length_lossP]; norm_num
    rw [avgLoss, rollingMeanP_getD 14 _ 14 hlen, hl]
    norm_num [isFin, finVal]
  have hIgain : (avgGain [1, 2, 3, 4, 5, 6, 7, 8, 9, 10, 11, 12, 13, 14, 15]).getD 14 .nan =
      PFloat.fin 1 := by
    have hg : gainP [1, 2, 3, 4, 5, 6, 7, 8, 9, 10, 11, 12, 13, 14, 15] =
        PFloat.nan :: [PFloat.fin 1, .fin 1, .fin 1, .fin 1, .fin 1, .fin 1, .fin 1,
          .fin 1, .fin 1, .fin 1, .fin 1, .fin 1, .fin 1, .fin 1] := by
      norm_num [gainP, deltaP, clipLower0, max_def]
    have hlen : (14 : ℕ) <
        (gainP [1, 2, 3, 4, 5, 6, 7, 8, 9, 10, 11, 12, 13, 14, 15]).length := by
      rw [length_gainP]; norm_num
    rw [avgGain, rollingMeanP_getD 14 _ 14 hlen, hg]
    norm_num [isFin, finVal]
  have hIloss : (avgLoss [1, 2, 3, 4, 5, 6, 7, 8, 9, 10, 11, 12, 13, 14, 15]).getD 14 .nan =
      PFloat.fin 0 := by
    have hl : lossP [1, 2, 3, 4, 5, 6, 7, 8, 9, 10, 11, 12, 13, 14, 15] =
        PFloat.nan :: [PFloat.fin 0, .fin 0, .fin 0, .fin 0, .fin 0, .fin 0, .fin 0,
          .fin 0, .fin 0, .fin 0, .fin 0, .fin 0, .fin 0, .fin 0] := by
      norm_num [lossP, deltaP, clipUpper0, pneg, min_def]
    have hlen : (14 : ℕ) <
        (lossP [1, 2, 3, 4, 5, 6, 7, 8, 9, 10, 11, 12, 13, 14, 15]).length := by
      rw [length_lossP]; norm_num
    rw [avgLoss, rollingMeanP_getD 14 _ 14 hlen, hl]
    norm_num [isFin, finVal]
  have h4 := (rsi_properties [2, 1, 2, 1, 2, 1, 2, 1, 2, 1, 2, 1, 2, 1, 2]).2.2.2.1
    14 (1 / 2) (1 / 2) hAgain hAloss (by norm_num)
  exact ⟨(rsi_properties [2, 1, 2, 1, 2, 1, 2, 1, 2, 1, 2, 1, 2, 1, 2]).2.1 0 (by norm_num),
    h4,
    (rsi_properties [2, 1, 2, 1, 2, 1, 2, 1, 2, 1, 2, 1, 2, 1, 2]).2.2.1 14 _ h4,
    (rsi_properties [1, 2, 3, 4, 5, 6, 7, 8, 9, 10, 11, 12, 13, 14, 15]).2.2.2.2
      14 1 hIgain (by norm_num) hIloss⟩
